import Mathlib

/-!
Verification of the bencode decoder (`src/lib.rs`, `BEncoder`).

The decoder is embedded shallowly: the Rust `Chars` cursor becomes an
explicit `List Char` of the not-yet-consumed input, every sub-routine
returns the decoded value together with the remaining input, and the
static error strings of the source become the constructors of
`DecodeErr`.  The recursion of `detect_and_decode` with `decode_list`
and `decode_dict` is made structural on an explicit fuel counter; the
top level supplies more fuel than the recursion can ever use, and the
marker `DecodeErr.outOfFuel` is proved unreachable, which is the
termination statement for the original unbounded recursion.  The
guarded `unwrap` calls of the source are modelled by explicit match
arms returning `DecodeErr.panicked`, likewise proved unreachable.
-/

namespace Bencoder

/-- Decode errors.  Each constructor stands for one distinct static
error string of the source:
`inputTooShort` for the too-short message of `decode`,
`unexpectedToken` for the fall-through message of `detect_and_decode`,
`unterminatedInteger` for the missing integer terminator message,
`integerParseError` for the integer parse failure message,
`stringLengthParseError` for the string length parse failure message,
`unterminatedContainer` for the missing container terminator message
(the source uses one and the same string both in `decode_list` and in
`decode_dict`),
`oddDictElements` for the odd element count message, and
`nonStringDictKey` for the non-string key message.
`outOfFuel` and `panicked` are artifacts of the embedding (recursion
fuel exhaustion, and the unreachable arm of a guarded unwrap); both are
proved unreachable below. -/
inductive DecodeErr where
  | inputTooShort
  | unexpectedToken
  | unterminatedInteger
  | integerParseError
  | stringLengthParseError
  | unterminatedContainer
  | oddDictElements
  | nonStringDictKey
  | outOfFuel
  | panicked
deriving DecidableEq, Repr

/-- The decoded value type `BType` of the source.  `ByteString` holds
the characters of the decoded string, `Dict` holds the underlying
`HashMap` modelled as an association list that is only ever accessed
through `hmInsert` and `hmLookup` (so only its lookup behaviour
matters, as for the hash map). -/
inductive BType where
  | byteString : List Char → BType
  | integer : Int → BType
  | list : List BType → BType
  | dict : List (List Char × BType) → BType

/-- The association list modelling `HashMap<String, BType>`. -/
abbrev HMap := List (List Char × BType)

/-- Remove every binding of key `k` (helper for `hmInsert`). -/
def eraseKey (k : List Char) : HMap → HMap
  | [] => []
  | p :: rest => if p.1 = k then eraseKey k rest else p :: eraseKey k rest

/-- Model of `HashMap::insert`: the new binding replaces any existing
binding of the same key. -/
def hmInsert (k : List Char) (v : BType) (m : HMap) : HMap :=
  (k, v) :: eraseKey k m

/-- Model of `HashMap` lookup: the value bound to `k`, if any. -/
def hmLookup (k : List Char) : HMap → Option BType
  | [] => none
  | p :: rest => if p.1 = k then some p.2 else hmLookup k rest

/-- Numeric value of a digit string, most significant digit first
(the accumulation order of the Rust integer parsers). -/
def digitsToNat (ds : List Char) : Nat :=
  ds.foldl (fun acc c => acc * 10 + (c.toNat - '0'.toNat)) 0

/-- Digit-run part of `i64::from_str`: a nonempty run of ASCII decimal
digits whose value, with the sign applied, fits in a signed 64-bit
integer; `neg` records a consumed leading minus sign. -/
def parseI64Digits (ds : List Char) (neg : Bool) : Option Int :=
  if ds.isEmpty then none
  else if ds.all Char.isDigit then
    let n := digitsToNat ds
    if neg then
      if n ≤ 2 ^ 63 then some (-(n : Int)) else none
    else
      if n ≤ 2 ^ 63 - 1 then some (n : Int) else none
  else none

/-- Model of Rust `str::parse::<i64>`: an optional leading sign
(`+` or `-`) followed by one or more ASCII digits, rejected on
overflow of the signed 64-bit range. -/
def parseI64 (cs : List Char) : Option Int :=
  match cs with
  | [] => none
  | c :: ds =>
    if c = '-' then parseI64Digits ds true
    else if c = '+' then parseI64Digits ds false
    else parseI64Digits (c :: ds) false

/-- Digit-run part of `usize::from_str` on a 64-bit target. -/
def parseUsizeDigits (ds : List Char) : Option Nat :=
  if ds.isEmpty then none
  else if ds.all Char.isDigit then
    let n := digitsToNat ds
    if n ≤ 2 ^ 64 - 1 then some n else none
  else none

/-- Model of Rust `str::parse::<usize>` on a 64-bit target: an optional
leading plus sign followed by one or more ASCII digits, rejected on
overflow; a minus sign is not accepted. -/
def parseUsize (cs : List Char) : Option Nat :=
  match cs with
  | [] => none
  | c :: ds =>
    if c = '+' then parseUsizeDigits ds
    else parseUsizeDigits (c :: ds)

/-- The pair-insertion loop at the end of `BEncoder::decode_dict`.
`elems` is the element vector viewed from its back (the vector is
popped from the end, so the model stores the elements in reverse push
order and pops from the front): the head is the next value, the
element after it the corresponding key.  The `isEmpty` guard and the
`panicked` arm model the `while !elements.is_empty()` condition and
the `elements.pop().unwrap()` inside it; the singleton arm models the
`None` case of the key pop falling into the catch-all match arm. -/
def buildDict (elems : List BType) (acc : HMap) : Except DecodeErr HMap :=
  if elems.isEmpty then .ok acc
  else
    match elems with
    | [] => .error .panicked
    | value :: .byteString key :: rest => buildDict rest (hmInsert key value acc)
    | _ :: _ :: _ => .error .nonStringDictKey
    | _ :: [] => .error .nonStringDictKey

/-- `BEncoder::decode_integer`.  The iterator chain
`inspect(..).take_while(.. != e ..).collect` consumes characters up to
and including the first `e` and collects the ones before it; the
tracked `current` character equals `e` exactly when such a terminator
was consumed, i.e. when the `dropWhile` residue is nonempty.  The
`isNone` test and the `panicked` arm model the `is_err()` guard and
the `unwrap()` of the parse result. -/
def decodeInteger (cs : List Char) : Except DecodeErr (BType × List Char) :=
  let numStr := cs.takeWhile (fun c => c != 'e')
  match cs.dropWhile (fun c => c != 'e') with
  | _ :: post =>
    let numResult := parseI64 numStr
    if numResult.isNone then .error .integerParseError
    else
      match numResult with
      | some n => .ok (.integer n, post)
      | none => .error .panicked
  | [] => .error .unterminatedInteger
/-- `BEncoder::decode_string`.  `first` is the already consumed first
digit of the length prefix; the cursor is consumed up to and including
the first colon (or to the end of the input when there is none), the
full prefix is parsed as a `usize`, and that many characters (or as
many as remain) form the payload. -/
def decodeString (first : Char) (cs : List Char) : Except DecodeErr (BType × List Char) :=
  let appended := cs.takeWhile (fun c => c != ':')
  let afterSep := (cs.dropWhile (fun c => c != ':')).tail
  match parseUsize (first :: appended) with
  | some n => .ok (.byteString (afterSep.take n), afterSep.drop n)
  | none => .error .stringLengthParseError

/-- The base case block of `BEncoder::decode_dict`, run when the loop
meets the `e` terminator: reject an odd element count, otherwise run
the pair-insertion loop and wrap the resulting map. -/
def finishDict (elems : List BType) (rest : List Char) : Except DecodeErr (BType × List Char) :=
  if elems.length % 2 ≠ 0 then .error .oddDictElements
  else
    match buildDict elems [] with
    | .ok acc => .ok (.dict acc, rest)
    | .error e => .error e

mutual

/-- `BEncoder::detect_and_decode`: dispatch on the current character.
Fuel is decremented on entry so that the mutual recursion is structural
on it; the container loops below call back with the decremented fuel. -/
def detectAndDecode : Nat → Option Char → List Char → Except DecodeErr (BType × List Char)
  | 0, _, _ => .error .outOfFuel
  | fuel + 1, current, cs =>
    match current with
    | some c =>
      if c = 'd' then decodeDictLoop fuel [] cs
      else if c = 'i' then decodeInteger cs
      else if c = 'l' then decodeListLoop fuel [] cs
      else if c.isDigit then decodeString c cs
      else .error .unexpectedToken
    | none => .error .unexpectedToken

/-- The `while` loop of `BEncoder::decode_dict`, entered with the
accumulated elements in reverse push order (`decode_dict` itself starts
it with an empty vector).  An exhausted cursor falls out of the loop
into the unterminated-container error; an `e` runs the base case
(even-count check, then the pair-insertion loop `buildDict`); anything
else is decoded as an element through the dispatch, with the `is_ok`
guard, the `unwrap`, and the `return result` of the source modelled
literally. -/
def decodeDictLoop (fuel : Nat) (elems : List BType) (cs : List Char) :
    Except DecodeErr (BType × List Char) :=
  match cs with
  | [] => .error .unterminatedContainer
  | c :: rest =>
    if c = 'e' then finishDict elems rest
    else
      match fuel with
      | 0 => .error .outOfFuel
      | fuel + 1 =>
        let result := detectAndDecode fuel (some c) rest
        if result.isOk then
          match result with
          | .ok (v, rest2) => decodeDictLoop fuel (v :: elems) rest2
          | .error _ => .error .panicked
        else result

/-- The `while` loop of `BEncoder::decode_list`, entered with the
accumulated elements in push order (`decode_list` itself starts it with
an empty vector).  Same shape as the dict loop, but `e` immediately
closes the list. -/
def decodeListLoop (fuel : Nat) (acc : List BType) (cs : List Char) :
    Except DecodeErr (BType × List Char) :=
  match cs with
  | [] => .error .unterminatedContainer
  | c :: rest =>
    if c = 'e' then .ok (.list acc, rest)
    else
      match fuel with
      | 0 => .error .outOfFuel
      | fuel + 1 =>
        let result := detectAndDecode fuel (some c) rest
        if result.isOk then
          match result with
          | .ok (v, rest2) => decodeListLoop fuel (acc ++ [v]) rest2
          | .error _ => .error .panicked
        else result

end

/-- `BEncoder::decode_dict`: run the dict loop with an empty element
vector. -/
def decodeDict (fuel : Nat) (cs : List Char) : Except DecodeErr (BType × List Char) :=
  decodeDictLoop fuel [] cs

/-- `BEncoder::decode_list`: run the list loop with an empty
accumulator. -/
def decodeList (fuel : Nat) (cs : List Char) : Except DecodeErr (BType × List Char) :=
  decodeListLoop fuel [] cs

/-- Fuel supplied by the top level: strictly more than the recursion
can consume on an input of this length (proved below). -/
def decodeFuel (cs : List Char) : Nat := 2 * cs.length + 2

/-- `BEncoder::decode`: the public entry point.  The guard models the
source test `input.len() < 2`, which counts UTF-8 bytes — a single
character occupying two or more bytes passes it; otherwise the first
character is pulled from the cursor and dispatched, and a successful
dispatch has its value returned with the unconsumed remainder of the
input discarded. -/
def decode (input : String) : Except DecodeErr BType :=
  if input.utf8ByteSize < 2 then .error .inputTooShort
  else
    let cs := input.data
    match detectAndDecode (decodeFuel cs) cs.head? cs.tail with
    | .ok (v, _) => .ok v
    | .error e => .error e

/-! ### Splitting lemmas for the cursor walks -/

/-- Taking while `p` holds over a split list with an explicit first
separator collects exactly the part before the separator. -/
theorem takeWhile_append_sep (p : Char → Bool) (pre post : List Char) (sep : Char)
    (hpre : ∀ c ∈ pre, p c = true) (hsep : p sep = false) :
    (pre ++ sep :: post).takeWhile p = pre := by
  induction pre with
  | nil => simp [List.takeWhile, hsep]
  | cons a l ih =>
    have ha : p a = true := hpre a (by simp)
    simp only [List.cons_append, List.takeWhile_cons, ha, if_true]
    simpa using ih (fun c hc => hpre c (by simp [hc]))

/-- Dropping while `p` holds over a split list with an explicit first
separator leaves the separator and everything after it. -/
theorem dropWhile_append_sep (p : Char → Bool) (pre post : List Char) (sep : Char)
    (hpre : ∀ c ∈ pre, p c = true) (hsep : p sep = false) :
    (pre ++ sep :: post).dropWhile p = sep :: post := by
  induction pre with
  | nil => simp [List.dropWhile, hsep]
  | cons a l ih =>
    have ha : p a = true := hpre a (by simp)
    simp only [List.cons_append, List.dropWhile_cons, ha, if_true]
    exact ih (fun c hc => hpre c (by simp [hc]))

/-- Taking while `p` holds over a list all of whose characters satisfy
`p` collects the whole list. -/
theorem takeWhile_eq_self_of_all (p : Char → Bool) (l : List Char)
    (h : ∀ c ∈ l, p c = true) : l.takeWhile p = l := by
  induction l with
  | nil => rfl
  | cons a l ih =>
    have ha : p a = true := h a (by simp)
    simp only [List.takeWhile_cons, ha, if_true, List.cons.injEq, true_and]
    exact ih (fun c hc => h c (by simp [hc]))

/-- Dropping while `p` holds over a list all of whose characters
satisfy `p` drops everything. -/
theorem dropWhile_eq_nil_of_all (p : Char → Bool) (l : List Char)
    (h : ∀ c ∈ l, p c = true) : l.dropWhile p = [] :=
  List.dropWhile_eq_nil_iff.2 h

/-- Dropping a prefix never lengthens a list. -/
theorem dropWhile_length_le (p : Char → Bool) (l : List Char) :
    (l.dropWhile p).length ≤ l.length := by
  induction l with
  | nil => simp
  | cons a l ih =>
    by_cases h : p a
    · simp only [List.dropWhile_cons, h, if_true, List.length_cons]
      omega
    · simp [List.dropWhile_cons, h]

/-! ### Step equations for the fueled decoders -/

@[simp] theorem isOk_ok {α : Type} (v : α) :
    (Except.ok v : Except DecodeErr α).isOk = true := rfl

@[simp] theorem isOk_error {α : Type} (e : DecodeErr) :
    (Except.error e : Except DecodeErr α).isOk = false := rfl

theorem detectAndDecode_zero (oc : Option Char) (cs : List Char) :
    detectAndDecode 0 oc cs = .error .outOfFuel := rfl

theorem detectAndDecode_succ (fuel : Nat) (c : Char) (cs : List Char) :
    detectAndDecode (fuel + 1) (some c) cs =
      (if c = 'd' then decodeDictLoop fuel [] cs
       else if c = 'i' then decodeInteger cs
       else if c = 'l' then decodeListLoop fuel [] cs
       else if c.isDigit then decodeString c cs
       else .error .unexpectedToken) := rfl

theorem detectAndDecode_none (fuel : Nat) (cs : List Char) :
    detectAndDecode (fuel + 1) none cs = .error .unexpectedToken := rfl

theorem decodeListLoop_nil (fuel : Nat) (acc : List BType) :
    decodeListLoop fuel acc [] = .error .unterminatedContainer := by
  rw [decodeListLoop.eq_def]

theorem decodeListLoop_e (fuel : Nat) (acc : List BType) (rest : List Char) :
    decodeListLoop fuel acc ('e' :: rest) = .ok (.list acc, rest) := by
  rw [decodeListLoop.eq_def]; simp

theorem decodeListLoop_cons (fuel : Nat) (acc : List BType) (c : Char)
    (rest : List Char) (hc : c ≠ 'e') :
    decodeListLoop (fuel + 1) acc (c :: rest) =
      (let result := detectAndDecode fuel (some c) rest
       if result.isOk then
         match result with
         | .ok (v, rest2) => decodeListLoop fuel (acc ++ [v]) rest2
         | .error _ => .error .panicked
       else result) := by
  rw [decodeListLoop.eq_def]; simp [hc]

theorem decodeListLoop_cons_zero (acc : List BType) (c : Char)
    (rest : List Char) (hc : c ≠ 'e') :
    decodeListLoop 0 acc (c :: rest) = .error .outOfFuel := by
  rw [decodeListLoop.eq_def]; simp [hc]

theorem decodeListLoop_cons_ok (fuel : Nat) (acc : List BType) (c : Char)
    (rest rest2 : List Char) (v : BType) (hc : c ≠ 'e')
    (h : detectAndDecode fuel (some c) rest = .ok (v, rest2)) :
    decodeListLoop (fuel + 1) acc (c :: rest) = decodeListLoop fuel (acc ++ [v]) rest2 := by
  rw [decodeListLoop_cons fuel acc c rest hc]; simp [h]

theorem decodeListLoop_cons_err (fuel : Nat) (acc : List BType) (c : Char)
    (rest : List Char) (e : DecodeErr) (hc : c ≠ 'e')
    (h : detectAndDecode fuel (some c) rest = .error e) :
    decodeListLoop (fuel + 1) acc (c :: rest) = .error e := by
  rw [decodeListLoop_cons fuel acc c rest hc]; simp [h]

theorem decodeDictLoop_nil (fuel : Nat) (elems : List BType) :
    decodeDictLoop fuel elems [] = .error .unterminatedContainer := by
  rw [decodeDictLoop.eq_def]

theorem decodeDictLoop_e (fuel : Nat) (elems : List BType) (rest : List Char) :
    decodeDictLoop fuel elems ('e' :: rest) = finishDict elems rest := by
  rw [decodeDictLoop.eq_def]; simp

theorem decodeDictLoop_cons (fuel : Nat) (elems : List BType) (c : Char)
    (rest : List Char) (hc : c ≠ 'e') :
    decodeDictLoop (fuel + 1) elems (c :: rest) =
      (let result := detectAndDecode fuel (some c) rest
       if result.isOk then
         match result with
         | .ok (v, rest2) => decodeDictLoop fuel (v :: elems) rest2
         | .error _ => .error .panicked
       else result) := by
  rw [decodeDictLoop.eq_def]; simp [hc]

theorem decodeDictLoop_cons_zero (elems : List BType) (c : Char)
    (rest : List Char) (hc : c ≠ 'e') :
    decodeDictLoop 0 elems (c :: rest) = .error .outOfFuel := by
  rw [decodeDictLoop.eq_def]; simp [hc]

theorem decodeDictLoop_cons_ok (fuel : Nat) (elems : List BType) (c : Char)
    (rest rest2 : List Char) (v : BType) (hc : c ≠ 'e')
    (h : detectAndDecode fuel (some c) rest = .ok (v, rest2)) :
    decodeDictLoop (fuel + 1) elems (c :: rest) = decodeDictLoop fuel (v :: elems) rest2 := by
  rw [decodeDictLoop_cons fuel elems c rest hc]; simp [h]

theorem decodeDictLoop_cons_err (fuel : Nat) (elems : List BType) (c : Char)
    (rest : List Char) (e : DecodeErr) (hc : c ≠ 'e')
    (h : detectAndDecode fuel (some c) rest = .error e) :
    decodeDictLoop (fuel + 1) elems (c :: rest) = .error e := by
  rw [decodeDictLoop_cons fuel elems c rest hc]; simp [h]

/-! ### Integer and string token lemmas -/

/-- A character that is an ASCII digit is none of the dispatch tags and
none of the sentinels. -/
theorem isDigit_ne (c : Char) (h : c.isDigit = true) :
    c ≠ 'd' ∧ c ≠ 'i' ∧ c ≠ 'l' ∧ c ≠ 'e' ∧ c ≠ ':' ∧ c ≠ '-' ∧ c ≠ '+' := by
  refine ⟨?_, ?_, ?_, ?_, ?_, ?_, ?_⟩ <;> (intro hc; subst hc; exact absurd h (by decide))

/-- A terminated integer token: with no `e` in the buffer, the decoder
consumes the buffer and the terminator, parses the buffer, maps a parse
failure to the integer parse error and wraps a parsed value. -/
theorem decodeInteger_terminated (buf rest : List Char) (h : ∀ c ∈ buf, c ≠ 'e') :
    decodeInteger (buf ++ 'e' :: rest) =
      (match parseI64 buf with
       | some n => .ok (.integer n, rest)
       | none => .error .integerParseError) := by
  have hb : ∀ c ∈ buf, (c != 'e') = true := fun c hc => by simp [h c hc]
  have h1 := takeWhile_append_sep (fun c => c != 'e') buf rest 'e' hb (by simp)
  have h2 := dropWhile_append_sep (fun c => c != 'e') buf rest 'e' hb (by simp)
  simp only [decodeInteger, h1, h2]
  cases hp : parseI64 buf <;> simp [hp]

/-- An unterminated integer token: with no `e` anywhere in the rest of
the input, the decoder fails with the unterminated integer error. -/
theorem decodeInteger_unterminated (cs : List Char) (h : ∀ c ∈ cs, c ≠ 'e') :
    decodeInteger cs = .error .unterminatedInteger := by
  have hb : ∀ c ∈ cs, (c != 'e') = true := fun c hc => by simp [h c hc]
  have h2 := dropWhile_eq_nil_of_all (fun c => c != 'e') cs hb
  simp only [decodeInteger, h2]

/-- The digit-run parser fails on any non-digit member. -/
theorem parseI64Digits_none_of_bad (ds : List Char) (neg : Bool) (c : Char)
    (hc : c ∈ ds) (hcd : ¬ c.isDigit = true) : parseI64Digits ds neg = none := by
  have hne : ds.isEmpty = false := by cases ds with
    | nil => cases hc
    | cons a l => rfl
  have hall : ds.all Char.isDigit = false := by
    rw [List.all_eq_false]
    exact ⟨c, hc, hcd⟩
  simp [parseI64Digits, hne, hall]

/-- The digit-run parser rejects values outside the signed 64-bit
range of its sign. -/
theorem parseI64Digits_overflow (ds : List Char) (hne : ds.isEmpty = false)
    (hall : ds.all Char.isDigit = true) :
    (2 ^ 63 - 1 < digitsToNat ds → parseI64Digits ds false = none) ∧
    (2 ^ 63 < digitsToNat ds → parseI64Digits ds true = none) := by
  constructor
  · intro hbig
    have h1 : ¬ digitsToNat ds ≤ 2 ^ 63 - 1 := by omega
    simp only [parseI64Digits, hne, hall, if_false, if_true, Bool.false_eq_true]
    rw [if_neg h1]
  · intro hbig
    have h1 : ¬ digitsToNat ds ≤ 2 ^ 63 := by omega
    simp only [parseI64Digits, hne, hall, if_false, if_true, Bool.false_eq_true]
    rw [if_neg h1]

/-- A minus-led buffer parses its digit run as a negative number. -/
theorem parseI64_minus (ds : List Char) : parseI64 ('-' :: ds) = parseI64Digits ds true := by
  simp [parseI64]

/-- A plus-led buffer parses its digit run as a positive number. -/
theorem parseI64_plus (ds : List Char) : parseI64 ('+' :: ds) = parseI64Digits ds false := by
  simp [parseI64]

/-- A buffer led by anything other than a sign is one whole digit run. -/
theorem parseI64_other (c : Char) (ds : List Char) (h1 : c ≠ '-') (h2 : c ≠ '+') :
    parseI64 (c :: ds) = parseI64Digits (c :: ds) false := by
  simp [parseI64, h1, h2]

/-! ### Claims C7, C2, C3, C4 -/

/-- C7 counterexample: the source guard compares the UTF-8 byte
length of the input, not its character count.  A one-character input
holding a two-byte character passes the guard, is dispatched, and
fails with the unexpected-token error — not with the input-too-short
error the claim requires for every input shorter than two
characters. -/
theorem C7_counterexample :
    ("é" : String).length = 1 ∧
    decode "é" = .error .unexpectedToken ∧
    (Except.error DecodeErr.unexpectedToken : Except DecodeErr BType) ≠
      .error .inputTooShort :=
  ⟨rfl, rfl, by intro h; injection h with h1; exact DecodeErr.noConfusion h1⟩

/-- C7 amended: every input shorter than two UTF-8 bytes fails
immediately with the input-too-short error, before any dispatch (a
one-character input passes the guard when its character occupies two
or more bytes). -/
theorem C7_amended (s : String) (h : s.utf8ByteSize < 2) :
    decode s = .error .inputTooShort := by
  simp [decode, h]

/-- Witness for C7 at the one-character one-byte input `l`. -/
theorem C7_witness : decode "l" = .error .inputTooShort :=
  C7_amended "l" (by decide)

/-- A string token split at its colon: the prefix is parsed and the
payload is taken from what follows the colon. -/
theorem decodeString_split (first : Char) (pre post : List Char) (n : Nat)
    (hpre : ∀ c ∈ pre, c ≠ ':') (hp : parseUsize (first :: pre) = some n) :
    decodeString first (pre ++ ':' :: post) =
      .ok (.byteString (post.take n), post.drop n) := by
  have hb : ∀ c ∈ pre, (c != ':') = true := fun c hc => by simp [hpre c hc]
  have h1 := takeWhile_append_sep (fun c => c != ':') pre post ':' hb (by simp)
  have h2 := dropWhile_append_sep (fun c => c != ':') pre post ':' hb (by simp)
  simp only [decodeString, h1, h2, List.tail_cons, hp]

/-- C2: when the length prefix of a string token parses to `n`, exactly
the next `n` characters are consumed as the payload when at least `n`
remain after the colon, and when fewer remain the whole remainder is
returned as a shorter byte string, without error; in particular the
input `4:hello` decodes to the byte string `hell` and the input `5:hel`
decodes to the byte string `hel`. -/
theorem C2_stringTruncation :
    (∀ (first : Char) (pre post : List Char) (n : Nat),
        (∀ c ∈ pre, c ≠ ':') → parseUsize (first :: pre) = some n →
        decodeString first (pre ++ ':' :: post) =
          .ok (.byteString (post.take n), post.drop n)) ∧
    (∀ (post : List Char) (n : Nat), n ≤ post.length →
        (post.take n).length = n ∧ post.take n ++ post.drop n = post) ∧
    (∀ (first : Char) (pre post : List Char) (n : Nat),
        (∀ c ∈ pre, c ≠ ':') → parseUsize (first :: pre) = some n →
        post.length < n →
        decodeString first (pre ++ ':' :: post) = .ok (.byteString post, [])) ∧
    decode "4:hello" = .ok (.byteString "hell".data) ∧
    decode "5:hel" = .ok (.byteString "hel".data) := by
  refine ⟨decodeString_split, ?_, ?_, rfl, rfl⟩
  · intro post n h
    exact ⟨by simp [List.length_take, Nat.min_eq_left h], List.take_append_drop n post⟩
  · intro first pre post n hpre hp h
    rw [decodeString_split first pre post n hpre hp, List.take_of_length_le (by omega),
        List.drop_eq_nil_of_le (by omega)]

/-- Witness for C2 at the input tail of `4:hello`. -/
theorem C2_witness :
    decodeString '4' (':' :: "hello".data) = .ok (.byteString "hell".data, ['o']) := by
  have h := C2_stringTruncation.1 '4' [] "hello".data 4 (by simp) (by decide)
  exact h

/-- C3 counterexample: the input `55` enters string decoding and the
input is exhausted before any colon sentinel, yet decoding succeeds
with an empty byte string instead of failing with the string length
parse error, because the accumulated prefix `55` still parses. -/
theorem C3_counterexample :
    decode "55" = .ok (.byteString []) ∧
    (Except.ok (BType.byteString []) : Except DecodeErr BType) ≠
      .error .stringLengthParseError :=
  ⟨rfl, fun h => nomatch h⟩

/-- C3 amended: when string decoding exhausts the input before a colon
sentinel, the whole accumulated prefix (first digit plus all remaining
characters) is still parsed as the declared length; decoding fails with
the string length parse error exactly when that parse fails, and
otherwise succeeds with an empty byte string (the empty remainder
truncated to the declared length). -/
theorem C3_amended (first : Char) (cs : List Char) (h : ∀ c ∈ cs, c ≠ ':') :
    decodeString first cs =
      (match parseUsize (first :: cs) with
       | some _ => .ok (.byteString [], [])
       | none => .error .stringLengthParseError) := by
  have hb : ∀ c ∈ cs, (c != ':') = true := fun c hc => by simp [h c hc]
  have h1 := takeWhile_eq_self_of_all (fun c => c != ':') cs hb
  have h2 := dropWhile_eq_nil_of_all (fun c => c != ':') cs hb
  simp only [decodeString, h1, h2, List.tail_nil]
  cases hp : parseUsize (first :: cs) <;> simp [hp]

/-- Witness for C3 at the input tail of `55`. -/
theorem C3_witness : decodeString '5' ['5'] = .ok (.byteString [], []) := by
  have h := C3_amended '5' ['5'] (by decide)
  exact h

/-- C4 counterexample: the buffer `+5` contains the non-digit character
`+`, which per the claim should be a parse failure yielding the integer
parse error, yet `i+5e` decodes successfully to the integer `5` because
the underlying signed 64-bit parser accepts an optional leading plus
sign. -/
theorem C4_counterexample :
    decode "i+5e" = .ok (.integer 5) ∧
    (Except.ok (BType.integer 5) : Except DecodeErr BType) ≠ .error .integerParseError :=
  ⟨rfl, fun h => nomatch h⟩

/-- C4 amended: the accumulated buffer, optionally starting with `-`
or `+`, is parsed as a signed 64-bit integer, and every parse failure
— empty buffer, a non-digit character anywhere after the optional
leading sign, a lone sign, or signed 64-bit overflow — yields the
integer parse error; overflow is reported as an error and never
wrapped, and no canonicalization is performed (leading zeros, `-0`,
and a leading `+` are accepted). -/
theorem C4_amended :
    (∀ buf rest, (∀ c ∈ buf, c ≠ 'e') →
        decodeInteger (buf ++ 'e' :: rest) =
          (match parseI64 buf with
           | some n => .ok (.integer n, rest)
           | none => .error .integerParseError)) ∧
    parseI64 [] = none ∧
    (parseI64 ['-'] = none ∧ parseI64 ['+'] = none) ∧
    (∀ ds neg c, c ∈ ds → ¬ c.isDigit = true → parseI64Digits ds neg = none) ∧
    (∀ ds, parseI64 ('-' :: ds) = parseI64Digits ds true) ∧
    (∀ ds, parseI64 ('+' :: ds) = parseI64Digits ds false) ∧
    (∀ c ds, c ≠ '-' → c ≠ '+' → parseI64 (c :: ds) = parseI64Digits (c :: ds) false) ∧
    (∀ ds, ds.all Char.isDigit = true → 2 ^ 63 - 1 < digitsToNat ds →
        parseI64 ds = none) ∧
    (∀ ds, ds.all Char.isDigit = true → 2 ^ 63 < digitsToNat ds →
        parseI64 ('-' :: ds) = none) ∧
    decode "i-0e" = .ok (.integer 0) ∧
    decode "i007e" = .ok (.integer 7) ∧
    decode "i+5e" = .ok (.integer 5) ∧
    decode "i9223372036854775807e" = .ok (.integer 9223372036854775807) ∧
    decode "i9223372036854775808e" = .error .integerParseError ∧
    decode "i-9223372036854775808e" = .ok (.integer (-9223372036854775808)) ∧
    decode "i-9223372036854775809e" = .error .integerParseError := by
  refine ⟨decodeInteger_terminated, rfl, ⟨rfl, rfl⟩,
      parseI64Digits_none_of_bad, parseI64_minus, parseI64_plus, parseI64_other,
      ?_, ?_, rfl, rfl, rfl, rfl, rfl, rfl, rfl⟩
  · intro ds hall hbig
    cases ds with
    | nil => exact absurd hbig (by simp [digitsToNat])
    | cons c tl =>
      have hcd : c.isDigit = true := by
        have := List.all_eq_true.1 hall c (by simp)
        simpa using this
      obtain ⟨-, -, -, -, -, hm, hp⟩ := isDigit_ne c hcd
      rw [parseI64_other c tl hm hp]
      exact (parseI64Digits_overflow (c :: tl) rfl hall).1 hbig
  · intro ds hall hbig
    rw [parseI64_minus]
    cases ds with
    | nil => exact absurd hbig (by simp [digitsToNat])
    | cons c tl =>
      exact (parseI64Digits_overflow (c :: tl) rfl hall).2 hbig

/-- Witness for C4 at the buffer `4`. -/
theorem C4_witness : decodeInteger ['4', 'e'] = .ok (.integer 4, []) := by
  have h := C4_amended.1 ['4'] [] (by decide)
  exact h

/-! ### Dict construction lemmas -/

theorem buildDict_cons_pair (v : BType) (k : List Char) (rest : List BType) (acc : HMap) :
    buildDict (v :: .byteString k :: rest) acc = buildDict rest (hmInsert k v acc) := rfl

/-- The element list the dict loop has accumulated, in reverse push
order, after reading the key/value pairs `qs` in reverse input order:
each pair contributes its value and then its key as a byte string. -/
def pairElemsRev (qs : List (List Char × BType)) : List BType :=
  qs.flatMap (fun p => [p.2, .byteString p.1])

theorem pairElemsRev_length (qs : List (List Char × BType)) :
    (pairElemsRev qs).length = 2 * qs.length := by
  induction qs with
  | nil => rfl
  | cons p qs ih =>
    simp only [pairElemsRev, List.flatMap_cons, List.length_append, List.length_cons,
      List.length_nil, List.length_cons] at ih ⊢
    omega

/-- Running the pair-insertion loop over a well-shaped reversed element
vector inserts the pairs left to right (i.e. from the last pair of the
input to the first). -/
theorem buildDict_pairElemsRev (qs : List (List Char × BType)) (acc : HMap) :
    buildDict (pairElemsRev qs) acc =
      .ok (qs.foldl (fun m p => hmInsert p.1 p.2 m) acc) := by
  induction qs generalizing acc with
  | nil => rfl
  | cons p qs ih =>
    show buildDict (p.2 :: .byteString p.1 :: pairElemsRev qs) acc = _
    rw [buildDict_cons_pair]
    exact ih (hmInsert p.1 p.2 acc)

/-- The mapping the decoder denotes for pairs read in input order: the
source inserts the pairs from the last to the first, which is the right
fold of `hmInsert`. -/
def dictOfPairs (ps : List (List Char × BType)) : HMap :=
  ps.foldr (fun p m => hmInsert p.1 p.2 m) []

theorem buildDict_pairs (ps : List (List Char × BType)) :
    buildDict (pairElemsRev ps.reverse) [] = .ok (dictOfPairs ps) := by
  rw [buildDict_pairElemsRev]
  rw [dictOfPairs, List.foldl_reverse]

theorem hmLookup_eraseKey (k k2 : List Char) (m : HMap) (h : k ≠ k2) :
    hmLookup k (eraseKey k2 m) = hmLookup k m := by
  induction m with
  | nil => rfl
  | cons p rest ih =>
    by_cases hp : p.1 = k2
    · have hne : ¬ p.1 = k := fun hh => h (hh.symm.trans hp)
      simp [eraseKey, hmLookup, hp, hne, ih, Ne.symm h]
    · by_cases hk : p.1 = k
      · simp [eraseKey, hmLookup, hp, hk, h]
      · simp [eraseKey, hmLookup, hp, hk, ih]

theorem hmLookup_hmInsert (k k2 : List Char) (v : BType) (m : HMap) :
    hmLookup k (hmInsert k2 v m) = if k2 = k then some v else hmLookup k m := by
  by_cases h : k2 = k
  · simp [hmInsert, hmLookup, h]
  · simp only [hmInsert, hmLookup, h, if_false]
    exact hmLookup_eraseKey k k2 m (fun hh => h hh.symm)

/-- First-write-wins: the mapping obtained by inserting the pairs from
the last to the first looks up every key to the value of the first pair
with that key, i.e. to plain first-occurrence association lookup. -/
theorem hmLookup_dictOfPairs (ps : List (List Char × BType)) (k : List Char) :
    hmLookup k (dictOfPairs ps) = hmLookup k ps := by
  induction ps with
  | nil => rfl
  | cons p ps ih =>
    show hmLookup k (hmInsert p.1 p.2 (dictOfPairs ps)) = _
    rw [hmLookup_hmInsert]
    by_cases h : p.1 = k
    · simp [hmLookup, h]
    · simp [hmLookup, h, ih]

/-- Whether every key position of a reversed element vector holds a
byte string, pairing the vector from the front as value then key
(matching the pop order of the source, which pairs the element vector
from its back). -/
def keysOk : List BType → Bool
  | [] => true
  | _ :: .byteString _ :: rest => keysOk rest
  | _ :: _ :: _ => false
  | [_] => true

theorem buildDict_badKey_aux : ∀ (n : Nat) (elems : List BType) (acc : HMap),
    elems.length ≤ n → elems.length % 2 = 0 → keysOk elems = false →
    buildDict elems acc = .error .nonStringDictKey := by
  intro n
  induction n with
  | zero =>
    intro elems acc hle heven hbad
    have : elems = [] := List.eq_nil_of_length_eq_zero (by omega)
    subst this
    exact absurd hbad (by simp [keysOk])
  | succ n ih =>
    intro elems acc hle heven hbad
    cases elems with
    | nil => exact absurd hbad (by simp [keysOk])
    | cons v rest1 =>
      cases rest1 with
      | nil => exact absurd heven (by simp)
      | cons w rest =>
        cases w with
        | byteString k =>
          rw [buildDict_cons_pair]
          refine ih rest _ ?_ ?_ ?_
          · simp only [List.length_cons] at hle; omega
          · simp only [List.length_cons] at heven; omega
          · simpa [keysOk] using hbad
        | integer m => rfl
        | list l => rfl
        | dict d => rfl

/-- With an even element count and some key position not holding a
byte string, the pair-insertion loop fails with the non-string-key
error. -/
theorem buildDict_badKey (elems : List BType) (acc : HMap)
    (heven : elems.length % 2 = 0) (hbad : keysOk elems = false) :
    buildDict elems acc = .error .nonStringDictKey :=
  buildDict_badKey_aux elems.length elems acc le_rfl heven hbad

/-- The dict base case on the element vector accumulated from the
pairs `ps` (read in input order) succeeds with the mapping built by
inserting the pairs from the last to the first. -/
theorem finishDict_pairs (ps : List (List Char × BType)) (rest : List Char) :
    finishDict (pairElemsRev ps.reverse) rest = .ok (.dict (dictOfPairs ps), rest) := by
  have hlen : (pairElemsRev ps.reverse).length % 2 = 0 := by
    rw [pairElemsRev_length]; omega
  simp only [finishDict, hlen, ne_eq, not_true_eq_false, if_false]
  rw [buildDict_pairs]

/-! ### Claims C1 and C5 -/

/-- C1 counterexample: in the input `d1:a1:x1:a1:ye` the key `a`
occurs in two pairs, first with value `x` and later with value `y`;
the decoded mapping binds `a` to the earlier value `x`, so the
later-encountered pair did not overwrite the earlier one as the claim
asserts it would. -/
theorem C1_counterexample :
    decode "d1:a1:x1:a1:ye" = .ok (.dict [(['a'], .byteString ['x'])]) ∧
    BType.byteString ['x'] ≠ BType.byteString ['y'] :=
  ⟨rfl, by intro h; injection h with h2; exact absurd h2 (by decide)⟩

/-- C1 amended: because the element vector is popped from its end, the
pairs of a decoded dict are inserted into the mapping in reverse input
order, so for a duplicated key the earlier-encountered pair silently
overwrites the later one (first-write-wins by input order): when the
dict loop reaches its terminator having accumulated the pairs `pairs`
(given in input order), it succeeds, and the resulting mapping agrees
on every key with first-occurrence association lookup over `pairs`. -/
theorem C1_amended (fuel : Nat) (pairs : List (List Char × BType))
    (rest : List Char) (k : List Char) :
    decodeDictLoop fuel (pairElemsRev pairs.reverse) ('e' :: rest) =
      .ok (.dict (dictOfPairs pairs), rest) ∧
    hmLookup k (dictOfPairs pairs) = hmLookup k pairs := by
  constructor
  · rw [decodeDictLoop_e, finishDict_pairs]
  · exact hmLookup_dictOfPairs pairs k

/-- C5: when the dict loop reaches its `e` terminator: an odd count of
accumulated elements fails with the odd-element-count error; an even
count with some key position (pairing the element vector from its end
as value/key) not holding a byte string fails with the non-string-key
error; and when every key position holds a byte string all pairs are
inserted and a dict value is returned with the remainder untouched. -/
theorem C5_dictTermination :
    (∀ (fuel : Nat) (elems : List BType) (rest : List Char),
        elems.length % 2 = 1 →
        decodeDictLoop fuel elems ('e' :: rest) = .error .oddDictElements) ∧
    (∀ (fuel : Nat) (elems : List BType) (rest : List Char),
        elems.length % 2 = 0 → keysOk elems = false →
        decodeDictLoop fuel elems ('e' :: rest) = .error .nonStringDictKey) ∧
    (∀ (fuel : Nat) (pairs : List (List Char × BType)) (rest : List Char),
        ∃ m, decodeDictLoop fuel (pairElemsRev pairs) ('e' :: rest) =
          .ok (.dict m, rest)) := by
  refine ⟨?_, ?_, ?_⟩
  · intro fuel elems rest h
    rw [decodeDictLoop_e]
    simp [finishDict, h]
  · intro fuel elems rest heven hbad
    rw [decodeDictLoop_e]
    simp only [finishDict, heven, ne_eq, not_true_eq_false, if_false]
    rw [buildDict_badKey elems [] heven hbad]
  · intro fuel pairs rest
    refine ⟨pairs.foldl (fun m p => hmInsert p.1 p.2 m) [], ?_⟩
    have hlen : (pairElemsRev pairs).length % 2 = 0 := by
      rw [pairElemsRev_length]; omega
    rw [decodeDictLoop_e]
    simp only [finishDict, hlen, ne_eq, not_true_eq_false, if_false]
    rw [buildDict_pairElemsRev]

/-- Witness for C5 at a singleton element vector. -/
theorem C5_witness :
    decodeDictLoop 0 [.integer 1] ['e'] = .error .oddDictElements :=
  C5_dictTermination.1 0 [.integer 1] [] (by decide)

/-! ### Error classification and consumption bounds -/

/-- Closed form of `decodeInteger` without the guarded unwrap. -/
theorem decodeInteger_eq (cs : List Char) :
    decodeInteger cs =
      (match cs.dropWhile (fun c => c != 'e') with
       | _ :: post =>
         match parseI64 (cs.takeWhile (fun c => c != 'e')) with
         | some n => .ok (.integer n, post)
         | none => .error .integerParseError
       | [] => .error .unterminatedInteger) := by
  simp only [decodeInteger]
  cases cs.dropWhile (fun c => c != 'e') with
  | nil => rfl
  | cons a post => cases parseI64 (cs.takeWhile (fun c => c != 'e')) <;> rfl

/-- Integer decoding fails only with its two own errors. -/
theorem decodeInteger_error (cs : List Char) (e : DecodeErr)
    (h : decodeInteger cs = .error e) :
    e = .integerParseError ∨ e = .unterminatedInteger := by
  rw [decodeInteger_eq] at h
  cases hdrop : cs.dropWhile (fun c => c != 'e') with
  | nil =>
    rw [hdrop] at h
    injection h with h1
    exact Or.inr h1.symm
  | cons a post =>
    rw [hdrop] at h
    cases hp : parseI64 (cs.takeWhile (fun c => c != 'e')) with
    | none =>
      rw [hp] at h
      injection h with h1
      exact Or.inl h1.symm
    | some n => rw [hp] at h; exact Except.noConfusion h

/-- String decoding fails only with the length parse error. -/
theorem decodeString_error (first : Char) (cs : List Char) (e : DecodeErr)
    (h : decodeString first cs = .error e) : e = .stringLengthParseError := by
  simp only [decodeString] at h
  cases hp : parseUsize (first :: cs.takeWhile (fun c => c != ':')) with
  | none =>
    rw [hp] at h
    injection h with h1
    exact h1.symm
  | some n => rw [hp] at h; exact Except.noConfusion h

theorem buildDict_error_aux : ∀ (n : Nat) (elems : List BType) (acc : HMap) (e : DecodeErr),
    elems.length ≤ n → buildDict elems acc = .error e → e = .nonStringDictKey := by
  intro n
  induction n with
  | zero =>
    intro elems acc e hle h
    have : elems = [] := List.eq_nil_of_length_eq_zero (by omega)
    subst this
    exact Except.noConfusion h
  | succ n ih =>
    intro elems acc e hle h
    cases elems with
    | nil => exact Except.noConfusion h
    | cons v rest1 =>
      cases rest1 with
      | nil =>
        injection h with h1
        exact h1.symm
      | cons w rest =>
        cases w with
        | byteString k =>
          rw [buildDict_cons_pair] at h
          refine ih rest _ e ?_ h
          simp only [List.length_cons] at hle
          omega
        | integer m => injection h with h1; exact h1.symm
        | list l => injection h with h1; exact h1.symm
        | dict d => injection h with h1; exact h1.symm

/-- The pair-insertion loop fails only with the non-string-key error;
in particular its guarded unwrap never panics. -/
theorem buildDict_error (elems : List BType) (acc : HMap) (e : DecodeErr)
    (h : buildDict elems acc = .error e) : e = .nonStringDictKey :=
  buildDict_error_aux elems.length elems acc e le_rfl h

/-- The dict base case fails only with its own two errors. -/
theorem finishDict_error (elems : List BType) (rest : List Char) (e : DecodeErr)
    (h : finishDict elems rest = .error e) :
    e = .oddDictElements ∨ e = .nonStringDictKey := by
  simp only [finishDict] at h
  by_cases hodd : elems.length % 2 ≠ 0
  · rw [if_pos hodd] at h
    injection h with h1
    exact Or.inl h1.symm
  · rw [if_neg hodd] at h
    cases hb : buildDict elems [] with
    | ok m => rw [hb] at h; exact Except.noConfusion h
    | error e2 =>
      rw [hb] at h
      injection h with h1
      exact Or.inr (h1.symm.trans (buildDict_error elems [] e2 hb))

/-- A successful dict base case returns the rest of the input it was
given. -/
theorem finishDict_ok (elems : List BType) (rest : List Char) (v : BType)
    (rest2 : List Char) (h : finishDict elems rest = .ok (v, rest2)) : rest2 = rest := by
  simp only [finishDict] at h
  by_cases hodd : elems.length % 2 ≠ 0
  · rw [if_pos hodd] at h; exact Except.noConfusion h
  · rw [if_neg hodd] at h
    cases hb : buildDict elems [] with
    | ok m =>
      rw [hb] at h
      injection h with h1
      exact (congrArg Prod.snd h1).symm
    | error e2 => rw [hb] at h; exact Except.noConfusion h

/-- Whatever the dispatch of a dict terminator block produces, it is
one of the two base-case errors or a success; never an embedding
marker. -/
theorem decodeDictLoop_e_ne (fuel : Nat) (elems : List BType) (rest : List Char)
    (e : DecodeErr) (hodd : e ≠ .oddDictElements) (hkey : e ≠ .nonStringDictKey) :
    decodeDictLoop fuel elems ('e' :: rest) ≠ .error e := by
  rw [decodeDictLoop_e]
  intro h
  rcases finishDict_error elems rest e h with h1 | h1
  · exact hodd h1
  · exact hkey h1

/-- The five possible shapes of a dispatch step. -/
theorem detectAndDecode_cases (fuel : Nat) (c : Char) (cs : List Char) :
    detectAndDecode (fuel + 1) (some c) cs = decodeDictLoop fuel [] cs ∨
    detectAndDecode (fuel + 1) (some c) cs = decodeInteger cs ∨
    detectAndDecode (fuel + 1) (some c) cs = decodeListLoop fuel [] cs ∨
    (∃ d, detectAndDecode (fuel + 1) (some c) cs = decodeString d cs) ∨
    detectAndDecode (fuel + 1) (some c) cs = .error .unexpectedToken := by
  rw [detectAndDecode_succ]
  by_cases hd : c = 'd'
  · rw [if_pos hd]; exact Or.inl rfl
  · rw [if_neg hd]
    by_cases hi : c = 'i'
    · rw [if_pos hi]; exact Or.inr (Or.inl rfl)
    · rw [if_neg hi]
      by_cases hl : c = 'l'
      · rw [if_pos hl]; exact Or.inr (Or.inr (Or.inl rfl))
      · rw [if_neg hl]
        by_cases hg : c.isDigit
        · rw [if_pos hg]; exact Or.inr (Or.inr (Or.inr (Or.inl ⟨c, rfl⟩)))
        · rw [if_neg hg]; exact Or.inr (Or.inr (Or.inr (Or.inr rfl)))

/-- A successful string decode leaves a remainder no longer than its
input. -/
theorem decodeString_rest_le (first : Char) (cs : List Char) (v : BType)
    (rest : List Char) (h : decodeString first cs = .ok (v, rest)) :
    rest.length ≤ cs.length := by
  simp only [decodeString] at h
  cases hp : parseUsize (first :: cs.takeWhile (fun c => c != ':')) with
  | none => rw [hp] at h; exact Except.noConfusion h
  | some n =>
    rw [hp] at h
    injection h with h1
    have h2 : ((cs.dropWhile (fun c => c != ':')).tail).drop n = rest := congrArg Prod.snd h1
    have h3 := dropWhile_length_le (fun c => c != ':') cs
    have h4 : ((cs.dropWhile (fun c => c != ':')).tail).length ≤
        (cs.dropWhile (fun c => c != ':')).length := by
      cases cs.dropWhile (fun c => c != ':') <;> simp
    have h5 := List.length_drop n ((cs.dropWhile (fun c => c != ':')).tail)
    rw [← h2]
    omega

/-- A successful integer decode leaves a remainder no longer than its
input. -/
theorem decodeInteger_rest_le (cs : List Char) (v : BType) (rest : List Char)
    (h : decodeInteger cs = .ok (v, rest)) : rest.length ≤ cs.length := by
  rw [decodeInteger_eq] at h
  have hlen := dropWhile_length_le (fun c => c != 'e') cs
  cases hdrop : cs.dropWhile (fun c => c != 'e') with
  | nil => rw [hdrop] at h; exact Except.noConfusion h
  | cons a post =>
    rw [hdrop] at h
    rw [hdrop] at hlen
    cases hp : parseI64 (cs.takeWhile (fun c => c != 'e')) with
    | none => rw [hp] at h; exact Except.noConfusion h
    | some n =>
      rw [hp] at h
      injection h with h1
      have h2 : post = rest := congrArg Prod.snd h1
      simp only [List.length_cons] at hlen
      rw [← h2]
      omega

/-- Any successful run of the three fueled decoders leaves a remainder
no longer than its input. -/
theorem rest_length_le : ∀ (fuel : Nat),
    (∀ oc cs v rest, detectAndDecode fuel oc cs = .ok (v, rest) → rest.length ≤ cs.length) ∧
    (∀ elems cs v rest, decodeDictLoop fuel elems cs = .ok (v, rest) → rest.length ≤ cs.length) ∧
    (∀ acc cs v rest, decodeListLoop fuel acc cs = .ok (v, rest) → rest.length ≤ cs.length) := by
  intro fuel
  induction fuel with
  | zero =>
    refine ⟨?_, ?_, ?_⟩
    · intro oc cs v rest h
      rw [detectAndDecode_zero] at h
      exact Except.noConfusion h
    · intro elems cs v rest h
      cases cs with
      | nil => rw [decodeDictLoop_nil] at h; exact Except.noConfusion h
      | cons c cs2 =>
        by_cases hc : c = 'e'
        · subst hc
          rw [decodeDictLoop_e] at h
          have h1 := finishDict_ok elems cs2 v rest h
          rw [h1]
          simp
        · rw [decodeDictLoop_cons_zero elems c cs2 hc] at h
          exact Except.noConfusion h
    · intro acc cs v rest h
      cases cs with
      | nil => rw [decodeListLoop_nil] at h; exact Except.noConfusion h
      | cons c cs2 =>
        by_cases hc : c = 'e'
        · subst hc
          rw [decodeListLoop_e] at h
          injection h with h1
          have h2 : cs2 = rest := congrArg Prod.snd h1
          rw [← h2]
          simp
        · rw [decodeListLoop_cons_zero acc c cs2 hc] at h
          exact Except.noConfusion h
  | succ n ih =>
    obtain ⟨ihD, ihDict, ihList⟩ := ih
    have hdisp : ∀ oc cs v rest, detectAndDecode (n + 1) oc cs = .ok (v, rest) →
        rest.length ≤ cs.length := by
      intro oc cs v rest h
      cases oc with
      | none => rw [detectAndDecode_none] at h; exact Except.noConfusion h
      | some c =>
        rcases detectAndDecode_cases n c cs with hcase | hcase | hcase | ⟨d, hcase⟩ | hcase
        · rw [hcase] at h; exact ihDict [] cs v rest h
        · rw [hcase] at h; exact decodeInteger_rest_le cs v rest h
        · rw [hcase] at h; exact ihList [] cs v rest h
        · rw [hcase] at h; exact decodeString_rest_le d cs v rest h
        · rw [hcase] at h; exact Except.noConfusion h
    refine ⟨hdisp, ?_, ?_⟩
    · intro elems cs v rest h
      cases cs with
      | nil => rw [decodeDictLoop_nil] at h; exact Except.noConfusion h
      | cons c cs2 =>
        by_cases hc : c = 'e'
        · subst hc
          rw [decodeDictLoop_e] at h
          have h1 := finishDict_ok elems cs2 v rest h
          rw [h1]
          simp
        · cases hres : detectAndDecode n (some c) cs2 with
          | ok p =>
            obtain ⟨v2, rest2⟩ := p
            rw [decodeDictLoop_cons_ok n elems c cs2 rest2 v2 hc hres] at h
            have h1 := ihDict _ _ _ _ h
            have h2 := ihD _ _ _ _ hres
            simp only [List.length_cons]
            omega
          | error e =>
            rw [decodeDictLoop_cons_err n elems c cs2 e hc hres] at h
            exact Except.noConfusion h
    · intro acc cs v rest h
      cases cs with
      | nil => rw [decodeListLoop_nil] at h; exact Except.noConfusion h
      | cons c cs2 =>
        by_cases hc : c = 'e'
        · subst hc
          rw [decodeListLoop_e] at h
          injection h with h1
          have h2 : cs2 = rest := congrArg Prod.snd h1
          rw [← h2]
          simp
        · cases hres : detectAndDecode n (some c) cs2 with
          | ok p =>
            obtain ⟨v2, rest2⟩ := p
            rw [decodeListLoop_cons_ok n acc c cs2 rest2 v2 hc hres] at h
            have h1 := ihList _ _ _ _ h
            have h2 := ihD _ _ _ _ hres
            simp only [List.length_cons]
            omega
          | error e =>
            rw [decodeListLoop_cons_err n acc c cs2 e hc hres] at h
            exact Except.noConfusion h

/-- Unfolding equation of the entry point. -/
theorem decode_eq (input : String) :
    decode input =
      (if input.utf8ByteSize < 2 then .error .inputTooShort
       else
         match detectAndDecode (decodeFuel input.data) input.data.head? input.data.tail with
         | .ok (v, _) => .ok v
         | .error e => .error e) := rfl

/-- Every character needs at least one UTF-8 byte, so the character
count bounds the byte count from below. -/
theorem length_le_utf8ByteSize (s : String) : s.length ≤ s.utf8ByteSize := by
  cases s with
  | mk l =>
    show l.length ≤ String.utf8ByteSize.go l
    induction l with
    | nil => simp [String.utf8ByteSize.go]
    | cons c cs ih =>
      have := Char.utf8Size_pos c
      simp only [String.utf8ByteSize.go, List.length_cons]
      omega

/-- The embedding marker for a panicking unwrap is unreachable in the
three fueled decoders, at every fuel. -/
theorem no_panic : ∀ (fuel : Nat),
    (∀ oc cs, detectAndDecode fuel oc cs ≠ .error .panicked) ∧
    (∀ elems cs, decodeDictLoop fuel elems cs ≠ .error .panicked) ∧
    (∀ acc cs, decodeListLoop fuel acc cs ≠ .error .panicked) := by
  have hint : ∀ cs, decodeInteger cs ≠ .error .panicked := by
    intro cs h
    rcases decodeInteger_error cs _ h with h1 | h1 <;> exact DecodeErr.noConfusion h1
  have hstr : ∀ d cs, decodeString d cs ≠ .error .panicked := by
    intro d cs h
    exact DecodeErr.noConfusion (decodeString_error d cs _ h)
  intro fuel
  induction fuel with
  | zero =>
    refine ⟨?_, ?_, ?_⟩
    · intro oc cs h
      rw [detectAndDecode_zero] at h
      injection h with h1
      exact DecodeErr.noConfusion h1
    · intro elems cs h
      cases cs with
      | nil =>
        rw [decodeDictLoop_nil] at h
        injection h with h1
        exact DecodeErr.noConfusion h1
      | cons c cs2 =>
        by_cases hc : c = 'e'
        · subst hc
          exact decodeDictLoop_e_ne 0 elems cs2 .panicked
            (fun hh => DecodeErr.noConfusion hh) (fun hh => DecodeErr.noConfusion hh) h
        · rw [decodeDictLoop_cons_zero elems c cs2 hc] at h
          injection h with h1
          exact DecodeErr.noConfusion h1
    · intro acc cs h
      cases cs with
      | nil =>
        rw [decodeListLoop_nil] at h
        injection h with h1
        exact DecodeErr.noConfusion h1
      | cons c cs2 =>
        by_cases hc : c = 'e'
        · subst hc
          rw [decodeListLoop_e] at h
          exact Except.noConfusion h
        · rw [decodeListLoop_cons_zero acc c cs2 hc] at h
          injection h with h1
          exact DecodeErr.noConfusion h1
  | succ n ih =>
    obtain ⟨ihD, ihDict, ihList⟩ := ih
    have hdisp : ∀ oc cs, detectAndDecode (n + 1) oc cs ≠ .error .panicked := by
      intro oc cs h
      cases oc with
      | none =>
        rw [detectAndDecode_none] at h
        injection h with h1
        exact DecodeErr.noConfusion h1
      | some c =>
        rcases detectAndDecode_cases n c cs with hcase | hcase | hcase | ⟨d, hcase⟩ | hcase
        · rw [hcase] at h; exact ihDict [] cs h
        · rw [hcase] at h; exact hint cs h
        · rw [hcase] at h; exact ihList [] cs h
        · rw [hcase] at h; exact hstr d cs h
        · rw [hcase] at h; injection h with h1; exact DecodeErr.noConfusion h1
    refine ⟨hdisp, ?_, ?_⟩
    · intro elems cs h
      cases cs with
      | nil =>
        rw [decodeDictLoop_nil] at h
        injection h with h1
        exact DecodeErr.noConfusion h1
      | cons c cs2 =>
        by_cases hc : c = 'e'
        · subst hc
          exact decodeDictLoop_e_ne (n + 1) elems cs2 .panicked
            (fun hh => DecodeErr.noConfusion hh) (fun hh => DecodeErr.noConfusion hh) h
        · cases hres : detectAndDecode n (some c) cs2 with
          | ok p =>
            obtain ⟨v2, rest2⟩ := p
            rw [decodeDictLoop_cons_ok n elems c cs2 rest2 v2 hc hres] at h
            exact ihDict _ _ h
          | error e =>
            rw [decodeDictLoop_cons_err n elems c cs2 e hc hres] at h
            injection h with h1
            exact ihD (some c) cs2 (h1 ▸ hres)
    · intro acc cs h
      cases cs with
      | nil =>
        rw [decodeListLoop_nil] at h
        injection h with h1
        exact DecodeErr.noConfusion h1
      | cons c cs2 =>
        by_cases hc : c = 'e'
        · subst hc
          rw [decodeListLoop_e] at h
          exact Except.noConfusion h
        · cases hres : detectAndDecode n (some c) cs2 with
          | ok p =>
            obtain ⟨v2, rest2⟩ := p
            rw [decodeListLoop_cons_ok n acc c cs2 rest2 v2 hc hres] at h
            exact ihList _ _ h
          | error e =>
            rw [decodeListLoop_cons_err n acc c cs2 e hc hres] at h
            injection h with h1
            exact ihD (some c) cs2 (h1 ▸ hres)

/-- The fuel-exhaustion marker is unreachable whenever the supplied
fuel exceeds twice the length of the remaining input; this is the
termination argument for the unbounded recursion of the source. -/
theorem no_fuel_err : ∀ (fuel : Nat),
    (∀ oc cs, 2 * cs.length + 2 ≤ fuel → detectAndDecode fuel oc cs ≠ .error .outOfFuel) ∧
    (∀ elems cs, 2 * cs.length + 1 ≤ fuel → decodeDictLoop fuel elems cs ≠ .error .outOfFuel) ∧
    (∀ acc cs, 2 * cs.length + 1 ≤ fuel → decodeListLoop fuel acc cs ≠ .error .outOfFuel) := by
  have hint : ∀ cs, decodeInteger cs ≠ .error .outOfFuel := by
    intro cs h
    rcases decodeInteger_error cs _ h with h1 | h1 <;> exact DecodeErr.noConfusion h1
  have hstr : ∀ d cs, decodeString d cs ≠ .error .outOfFuel := by
    intro d cs h
    exact DecodeErr.noConfusion (decodeString_error d cs _ h)
  intro fuel
  induction fuel with
  | zero =>
    refine ⟨?_, ?_, ?_⟩
    · intro oc cs hb; omega
    · intro elems cs hb; omega
    · intro acc cs hb; omega
  | succ n ih =>
    obtain ⟨ihD, ihDict, ihList⟩ := ih
    have hdisp : ∀ oc cs, 2 * cs.length + 2 ≤ n + 1 →
        detectAndDecode (n + 1) oc cs ≠ .error .outOfFuel := by
      intro oc cs hb h
      cases oc with
      | none =>
        rw [detectAndDecode_none] at h
        injection h with h1
        exact DecodeErr.noConfusion h1
      | some c =>
        rcases detectAndDecode_cases n c cs with hcase | hcase | hcase | ⟨d, hcase⟩ | hcase
        · rw [hcase] at h; exact ihDict [] cs (by omega) h
        · rw [hcase] at h; exact hint cs h
        · rw [hcase] at h; exact ihList [] cs (by omega) h
        · rw [hcase] at h; exact hstr d cs h
        · rw [hcase] at h; injection h with h1; exact DecodeErr.noConfusion h1
    refine ⟨hdisp, ?_, ?_⟩
    · intro elems cs hb h
      cases cs with
      | nil =>
        rw [decodeDictLoop_nil] at h
        injection h with h1
        exact DecodeErr.noConfusion h1
      | cons c cs2 =>
        by_cases hc : c = 'e'
        · subst hc
          exact decodeDictLoop_e_ne (n + 1) elems cs2 .outOfFuel
            (fun hh => DecodeErr.noConfusion hh) (fun hh => DecodeErr.noConfusion hh) h
        · cases hres : detectAndDecode n (some c) cs2 with
          | ok p =>
            obtain ⟨v2, rest2⟩ := p
            rw [decodeDictLoop_cons_ok n elems c cs2 rest2 v2 hc hres] at h
            have hle := (rest_length_le n).1 _ _ _ _ hres
            simp only [List.length_cons] at hb
            exact ihDict _ _ (by omega) h
          | error e =>
            rw [decodeDictLoop_cons_err n elems c cs2 e hc hres] at h
            injection h with h1
            simp only [List.length_cons] at hb
            exact ihD (some c) cs2 (by omega) (h1 ▸ hres)
    · intro acc cs hb h
      cases cs with
      | nil =>
        rw [decodeListLoop_nil] at h
        injection h with h1
        exact DecodeErr.noConfusion h1
      | cons c cs2 =>
        by_cases hc : c = 'e'
        · subst hc
          rw [decodeListLoop_e] at h
          exact Except.noConfusion h
        · cases hres : detectAndDecode n (some c) cs2 with
          | ok p =>
            obtain ⟨v2, rest2⟩ := p
            rw [decodeListLoop_cons_ok n acc c cs2 rest2 v2 hc hres] at h
            have hle := (rest_length_le n).1 _ _ _ _ hres
            simp only [List.length_cons] at hb
            exact ihList _ _ (by omega) h
          | error e =>
            rw [decodeListLoop_cons_err n acc c cs2 e hc hres] at h
            injection h with h1
            simp only [List.length_cons] at hb
            exact ihD (some c) cs2 (by omega) (h1 ▸ hres)

/-! ### Claims C6, C8, C9 -/

/-- C6: integer decoding whose remaining input holds no `e`, and each
container loop on an exhausted input, fail with the corresponding
unterminated error (the source uses one shared message for an
unterminated list and an unterminated dict); the recursion always
terminates — the fuel bound supplied by `decode` is never exhausted —
and the nested instances show the behaviour through a container at
deeper nesting levels, rather than looping or silently closing. -/
theorem C6_unterminated :
    (∀ cs, (∀ c ∈ cs, c ≠ 'e') → decodeInteger cs = .error .unterminatedInteger) ∧
    (∀ (fuel : Nat) (acc : List BType),
        decodeListLoop fuel acc [] = .error .unterminatedContainer) ∧
    (∀ (fuel : Nat) (elems : List BType),
        decodeDictLoop fuel elems [] = .error .unterminatedContainer) ∧
    (∀ input : String, decode input ≠ .error .outOfFuel) ∧
    decode "i12" = .error .unterminatedInteger ∧
    decode "li12" = .error .unterminatedInteger ∧
    decode "ll" = .error .unterminatedContainer ∧
    decode "ld" = .error .unterminatedContainer ∧
    decode "d1:a" = .error .unterminatedContainer := by
  refine ⟨decodeInteger_unterminated, decodeListLoop_nil, decodeDictLoop_nil, ?_,
    rfl, rfl, rfl, rfl, rfl⟩
  intro input h
  rw [decode_eq] at h
  by_cases hlen : input.utf8ByteSize < 2
  · rw [if_pos hlen] at h
    injection h with h1
    exact DecodeErr.noConfusion h1
  · rw [if_neg hlen] at h
    cases hres : detectAndDecode (decodeFuel input.data) input.data.head? input.data.tail with
    | ok p =>
      obtain ⟨v, r⟩ := p
      rw [hres] at h
      exact Except.noConfusion h
    | error e =>
      rw [hres] at h
      injection h with h1
      have hb : 2 * input.data.tail.length + 2 ≤ decodeFuel input.data := by
        have : input.data.tail.length ≤ input.data.length := by
          cases input.data <;> simp
        simp only [decodeFuel]
        omega
      exact (no_fuel_err (decodeFuel input.data)).1 _ _ hb (h1 ▸ hres)

/-- Witness for C6 at an integer token missing its terminator. -/
theorem C6_witness : decodeInteger ['1'] = .error .unterminatedInteger :=
  C6_unterminated.1 ['1'] (by decide)

/-- C8: fail-fast propagation.  A failing element decode makes the
enclosing list or dict loop return that exact error value instead of
any partial container, the top level returns a dispatch error
unchanged, and the nested instances show an inner error value arriving
unchanged at the top level through one and two container levels. -/
theorem C8_failFast :
    (∀ (fuel : Nat) (acc : List BType) (c : Char) (rest : List Char) (e : DecodeErr),
        c ≠ 'e' → detectAndDecode fuel (some c) rest = .error e →
        decodeListLoop (fuel + 1) acc (c :: rest) = .error e) ∧
    (∀ (fuel : Nat) (elems : List BType) (c : Char) (rest : List Char) (e : DecodeErr),
        c ≠ 'e' → detectAndDecode fuel (some c) rest = .error e →
        decodeDictLoop (fuel + 1) elems (c :: rest) = .error e) ∧
    (∀ (input : String) (e : DecodeErr), ¬ input.length < 2 →
        detectAndDecode (decodeFuel input.data) input.data.head? input.data.tail = .error e →
        decode input = .error e) ∧
    decode "l?e" = .error .unexpectedToken ∧
    decode "ll?ee" = .error .unexpectedToken ∧
    decode "dl?ee" = .error .unexpectedToken := by
  refine ⟨?_, ?_, ?_, rfl, rfl, rfl⟩
  · intro fuel acc c rest e hc h
    exact decodeListLoop_cons_err fuel acc c rest e hc h
  · intro fuel elems c rest e hc h
    exact decodeDictLoop_cons_err fuel elems c rest e hc h
  · intro input e hlen h
    have hb : ¬ input.utf8ByteSize < 2 := by
      have := length_le_utf8ByteSize input
      omega
    rw [decode_eq, if_neg hb, h]

/-- Witness for C8 at a list with an undecodable element. -/
theorem C8_witness : decode "l?e" = .error .unexpectedToken :=
  C8_failFast.2.2.1 "l?e" .unexpectedToken (by decide) rfl

/-- C9: decode never panics.  The guarded unwraps of the source — the
value pop of the dict base case, the `is_ok` guarded unwrap of each
loop, and the `is_err` guarded unwrap of the integer parse — are
modelled as explicit arms yielding the `panicked` marker, and that
marker is unreachable from every routine and from the entry point, on
any input. -/
theorem C9_noPanic :
    (∀ cs, decodeInteger cs ≠ .error .panicked) ∧
    (∀ (elems : List BType) (acc : HMap), buildDict elems acc ≠ .error .panicked) ∧
    (∀ (fuel : Nat) (elems : List BType) (cs : List Char),
        decodeDictLoop fuel elems cs ≠ .error .panicked) ∧
    (∀ (fuel : Nat) (acc : List BType) (cs : List Char),
        decodeListLoop fuel acc cs ≠ .error .panicked) ∧
    (∀ input : String, decode input ≠ .error .panicked) := by
  refine ⟨?_, ?_, ?_, ?_, ?_⟩
  · intro cs h
    rcases decodeInteger_error cs _ h with h1 | h1 <;> exact DecodeErr.noConfusion h1
  · intro elems acc h
    exact DecodeErr.noConfusion (buildDict_error elems acc _ h)
  · intro fuel elems cs h
    exact (no_panic fuel).2.1 elems cs h
  · intro fuel acc cs h
    exact (no_panic fuel).2.2 acc cs h
  · intro input h
    rw [decode_eq] at h
    by_cases hlen : input.utf8ByteSize < 2
    · rw [if_pos hlen] at h
      injection h with h1
      exact DecodeErr.noConfusion h1
    · rw [if_neg hlen] at h
      cases hres : detectAndDecode (decodeFuel input.data) input.data.head? input.data.tail with
      | ok p =>
        obtain ⟨v, r⟩ := p
        rw [hres] at h
        exact Except.noConfusion h
      | error e =>
        rw [hres] at h
        injection h with h1
        exact (no_panic (decodeFuel input.data)).1 _ _ (h1 ▸ hres)

/-! ### The wire grammar and claim C10 -/

/-- An integer literal of the wire grammar: an optional minus sign
followed by one or more ASCII digits, with the denoted value inside
the signed 64-bit range of the decoded integer type. -/
inductive IntLit : List Char → Int → Prop where
  | pos : ∀ ds, ds ≠ [] → ds.all Char.isDigit = true → digitsToNat ds ≤ 2 ^ 63 - 1 →
      IntLit ds (digitsToNat ds)
  | neg : ∀ ds, ds ≠ [] → ds.all Char.isDigit = true → digitsToNat ds ≤ 2 ^ 63 →
      IntLit ('-' :: ds) (-(digitsToNat ds : Int))

/-- Modelled from the spec: the wire grammar of section 6, stating
that a character list is a complete encoding of a value.  An integer
is `i`, a literal, `e`; a byte string is a digit run denoting the
payload length, a colon, and exactly that many payload characters; a
list wraps the concatenated encodings of its elements in `l` .. `e`;
a dict wraps concatenated key/value encodings in `d` .. `e` with every
key a byte string, and denotes the mapping the source builds from the
pair sequence (`dictOfPairs`; per C1, the first pair of a duplicated
key wins). -/
inductive Enc : BType → List Char → Prop where
  | int : ∀ (n : Int) (body : List Char), IntLit body n →
      Enc (.integer n) ('i' :: body ++ ['e'])
  | str : ∀ (ds payload : List Char), ds ≠ [] → ds.all Char.isDigit = true →
      digitsToNat ds = payload.length → payload.length ≤ 2 ^ 64 - 1 →
      Enc (.byteString payload) (ds ++ ':' :: payload)
  | list : ∀ (items : List (BType × List Char)),
      (∀ p ∈ items, Enc p.1 p.2) →
      Enc (.list (items.map Prod.fst)) ('l' :: (items.map Prod.snd).flatten ++ ['e'])
  | dict : ∀ (items : List ((List Char × List Char) × (BType × List Char))),
      (∀ q ∈ items, Enc (.byteString q.1.1) q.1.2) →
      (∀ q ∈ items, Enc q.2.1 q.2.2) →
      Enc (.dict (dictOfPairs (items.map (fun q => (q.1.1, q.2.1)))))
          ('d' :: (items.map (fun q => q.1.2 ++ q.2.2)).flatten ++ ['e'])

/-- No character of an integer literal is the terminator `e`. -/
theorem IntLit_no_e (body : List Char) (n : Int) (h : IntLit body n) :
    ∀ c ∈ body, c ≠ 'e' := by
  cases h with
  | pos ds hne hall hle =>
    intro c hc he
    subst he
    have h2 := List.all_eq_true.1 hall 'e' hc
    simp only at h2
    exact absurd h2 (by decide)
  | neg ds hne hall hle =>
    intro c hc he
    subst he
    rcases List.mem_cons.1 hc with h1 | h1
    · exact absurd h1 (by decide)
    · have h2 := List.all_eq_true.1 hall 'e' h1
      simp only at h2
      exact absurd h2 (by decide)

/-- The 64-bit signed parser accepts every integer literal of the
grammar with its denoted value. -/
theorem IntLit_parseI64 (body : List Char) (n : Int) (h : IntLit body n) :
    parseI64 body = some n := by
  cases h with
  | pos ds hne hall hle =>
    cases body with
    | nil => exact absurd rfl hne
    | cons c tl =>
      have hcd : c.isDigit = true := by
        have := List.all_eq_true.1 hall c (by simp)
        simpa using this
      obtain ⟨-, -, -, -, -, hm, hp⟩ := isDigit_ne c hcd
      rw [parseI64_other c tl hm hp]
      simp only [parseI64Digits, List.isEmpty_cons, hall, Bool.false_eq_true, if_false, if_true]
      rw [if_pos hle]
  | neg ds hne hall hle =>
    rw [parseI64_minus]
    cases ds with
    | nil => exact absurd rfl hne
    | cons c tl =>
      simp only [parseI64Digits, List.isEmpty_cons, hall, Bool.false_eq_true, if_false, if_true]
      rw [if_pos hle]

/-- The unsigned length parser accepts every digit run of the grammar
with its denoted value. -/
theorem parseUsize_digits (ds : List Char) (hne : ds ≠ [])
    (hall : ds.all Char.isDigit = true) (hle : digitsToNat ds ≤ 2 ^ 64 - 1) :
    parseUsize ds = some (digitsToNat ds) := by
  cases ds with
  | nil => exact absurd rfl hne
  | cons c tl =>
    have hcd : c.isDigit = true := by
      have := List.all_eq_true.1 hall c (by simp)
      simpa using this
    obtain ⟨-, -, -, -, -, -, hp⟩ := isDigit_ne c hcd
    simp only [parseUsize, hp, if_false]
    simp only [parseUsizeDigits, List.isEmpty_cons, hall, Bool.false_eq_true, if_false, if_true]
    rw [if_pos hle]

/-- An encoding is never empty. -/
theorem Enc_ne_nil (v : BType) (enc : List Char) (h : Enc v enc) : enc ≠ [] := by
  cases h with
  | int n body hb => simp
  | str ds payload hne hall hlen hle =>
    cases ds with
    | nil => exact absurd rfl hne
    | cons c tl => simp
  | list items hmem => simp
  | dict items hk hv => simp

/-- An encoding is at least two characters long. -/
theorem Enc_length_two_le (v : BType) (enc : List Char) (h : Enc v enc) :
    2 ≤ enc.length := by
  cases h with
  | int n body hb => simp only [List.cons_append, List.length_cons, List.length_append,
      List.length_singleton]; omega
  | str ds payload hne hall hlen hle =>
    cases ds with
    | nil => exact absurd rfl hne
    | cons c tl => simp only [List.cons_append, List.length_cons, List.length_append]; omega
  | list items hmem => simp only [List.cons_append, List.length_cons, List.length_append,
      List.length_singleton]; omega
  | dict items hk hv => simp only [List.cons_append, List.length_cons, List.length_append,
      List.length_singleton]; omega

/-- The first character of an encoding is never the terminator `e`
(it is `i`, `l`, `d`, or a digit). -/
theorem Enc_head_ne_e_aux (v : BType) (enc : List Char) (h : Enc v enc) :
    ∀ d, enc.head? = some d → d ≠ 'e' := by
  cases h with
  | int n body hb =>
    intro d hd
    rw [List.cons_append, List.head?_cons] at hd
    injection hd with hd1
    subst hd1
    decide
  | str ds payload hne hall hlen hle =>
    intro d hd
    cases ds with
    | nil => exact absurd rfl hne
    | cons a atl =>
      rw [List.cons_append, List.head?_cons] at hd
      injection hd with hd1
      subst hd1
      have hcd : a.isDigit = true := by
        have := List.all_eq_true.1 hall a (by simp)
        simpa using this
      obtain ⟨-, -, -, hne2, -, -, -⟩ := isDigit_ne a hcd
      exact hne2
  | list items hmem =>
    intro d hd
    rw [List.cons_append, List.head?_cons] at hd
    injection hd with hd1
    subst hd1
    decide
  | dict items hk hv =>
    intro d hd
    rw [List.cons_append, List.head?_cons] at hd
    injection hd with hd1
    subst hd1
    decide

/-- Specialization of `Enc_head_ne_e_aux` to an explicit head. -/
theorem Enc_head_ne_e (v : BType) (c : Char) (tl : List Char)
    (h : Enc v (c :: tl)) : c ≠ 'e' :=
  Enc_head_ne_e_aux v (c :: tl) h c rfl

/-- A member of a list of lists is no longer than the flattening. -/
theorem length_le_flatten (l : List (List Char)) (x : List Char) (hx : x ∈ l) :
    x.length ≤ l.flatten.length := by
  induction l with
  | nil => cases hx
  | cons a l ih =>
    rcases List.mem_cons.1 hx with h | h
    · subst h
      simp only [List.flatten_cons, List.length_append]
      omega
    · have := ih h
      simp only [List.flatten_cons, List.length_append]
      omega

theorem pairElemsRev_append (a b : List (List Char × BType)) :
    pairElemsRev (a ++ b) = pairElemsRev a ++ pairElemsRev b := by
  simp [pairElemsRev]

/-- Decoding a list body: with every element of `items` decodable
through the dispatch, the list loop consumes the concatenated element
encodings and the closing terminator, appending the element values in
order and leaving exactly the trailing input. -/
theorem Enc_listLoop : ∀ (items : List (BType × List Char)),
    (∀ p ∈ items, Enc p.1 p.2) →
    (∀ p ∈ items, ∀ (g : List Char) (fuel : Nat),
        2 * (p.2.tail ++ g).length + 2 ≤ fuel →
        detectAndDecode fuel p.2.head? (p.2.tail ++ g) = .ok (p.1, g)) →
    ∀ (acc : List BType) (g : List Char) (fuel : Nat),
      2 * ((items.map Prod.snd).flatten ++ 'e' :: g).length + 1 ≤ fuel →
      decodeListLoop fuel acc ((items.map Prod.snd).flatten ++ 'e' :: g) =
        .ok (.list (acc ++ items.map Prod.fst), g) := by
  intro items
  induction items with
  | nil =>
    intro hmem hdisp acc g fuel hfuel
    simp only [List.map_nil, List.flatten_nil, List.nil_append, List.append_nil]
    exact decodeListLoop_e fuel acc g
  | cons p items ih =>
    intro hmem hdisp acc g fuel hfuel
    have hpe : Enc p.1 p.2 := hmem p (by simp)
    obtain ⟨c, ctl, hp2⟩ : ∃ c ctl, p.2 = c :: ctl := by
      cases hq : p.2 with
      | nil => exact absurd hq (Enc_ne_nil p.1 p.2 hpe)
      | cons c ctl => exact ⟨c, ctl, rfl⟩
    have hce : c ≠ 'e' := Enc_head_ne_e p.1 c ctl (hp2 ▸ hpe)
    simp only [List.map_cons, List.flatten_cons, hp2, List.cons_append,
      List.append_assoc] at hfuel ⊢
    cases fuel with
    | zero => simp only [List.length_cons, List.length_append] at hfuel; omega
    | succ f =>
      have hbound : 2 * ((p.2.tail ++ ((items.map Prod.snd).flatten ++ 'e' :: g)).length) + 2 ≤ f := by
        rw [hp2]
        simp only [List.tail_cons, List.length_append, List.length_cons] at hfuel ⊢
        omega
      have hstep := hdisp p (by simp) ((items.map Prod.snd).flatten ++ 'e' :: g) f hbound
      rw [hp2] at hstep
      simp only [List.head?_cons, List.tail_cons] at hstep
      rw [decodeListLoop_cons_ok f acc c _ _ p.1 hce hstep]
      have hb2 : 2 * (((items.map Prod.snd).flatten ++ 'e' :: g)).length + 1 ≤ f := by
        simp only [List.length_append, List.length_cons] at hfuel ⊢
        omega
      rw [ih (fun q hq => hmem q (List.mem_cons_of_mem p hq))
          (fun q hq => hdisp q (List.mem_cons_of_mem p hq)) (acc ++ [p.1]) g f hb2]
      simp

/-- Decoding a dict body: with every key and value of `items`
decodable through the dispatch, the dict loop consumes the
concatenated pair encodings and the closing terminator, accumulating
key and value elements in push order, and then runs the base case on
them. -/
theorem Enc_dictLoop : ∀ (items : List ((List Char × List Char) × (BType × List Char))),
    (∀ q ∈ items, Enc (.byteString q.1.1) q.1.2) →
    (∀ q ∈ items, Enc q.2.1 q.2.2) →
    (∀ q ∈ items, ∀ (g : List Char) (fuel : Nat),
        2 * (q.1.2.tail ++ g).length + 2 ≤ fuel →
        detectAndDecode fuel q.1.2.head? (q.1.2.tail ++ g) = .ok (.byteString q.1.1, g)) →
    (∀ q ∈ items, ∀ (g : List Char) (fuel : Nat),
        2 * (q.2.2.tail ++ g).length + 2 ≤ fuel →
        detectAndDecode fuel q.2.2.head? (q.2.2.tail ++ g) = .ok (q.2.1, g)) →
    ∀ (elems : List BType) (g : List Char) (fuel : Nat),
      2 * ((items.map (fun q => q.1.2 ++ q.2.2)).flatten ++ 'e' :: g).length + 1 ≤ fuel →
      decodeDictLoop fuel elems ((items.map (fun q => q.1.2 ++ q.2.2)).flatten ++ 'e' :: g) =
        finishDict (pairElemsRev (items.map (fun q => (q.1.1, q.2.1))).reverse ++ elems) g := by
  intro items
  induction items with
  | nil =>
    intro _ _ _ _ elems g fuel hfuel
    simp only [List.map_nil, List.flatten_nil, List.nil_append, List.reverse_nil]
    rw [decodeDictLoop_e]
    rfl
  | cons q items ih =>
    intro hkm hvm hkd hvd elems g fuel hfuel
    have hke : Enc (.byteString q.1.1) q.1.2 := hkm q (by simp)
    have hve : Enc q.2.1 q.2.2 := hvm q (by simp)
    obtain ⟨kc, ktl, hk2⟩ : ∃ kc ktl, q.1.2 = kc :: ktl := by
      cases hq : q.1.2 with
      | nil => exact absurd hq (Enc_ne_nil _ _ hke)
      | cons kc ktl => exact ⟨kc, ktl, rfl⟩
    obtain ⟨vc, vtl, hv2⟩ : ∃ vc vtl, q.2.2 = vc :: vtl := by
      cases hq : q.2.2 with
      | nil => exact absurd hq (Enc_ne_nil _ _ hve)
      | cons vc vtl => exact ⟨vc, vtl, rfl⟩
    have hkce : kc ≠ 'e' := Enc_head_ne_e _ kc ktl (hk2 ▸ hke)
    have hvce : vc ≠ 'e' := Enc_head_ne_e _ vc vtl (hv2 ▸ hve)
    simp only [List.map_cons, List.flatten_cons, hk2, hv2, List.cons_append,
      List.append_assoc] at hfuel ⊢
    cases fuel with
    | zero => simp only [List.length_cons, List.length_append] at hfuel; omega
    | succ f =>
      have hbound1 : 2 * ((q.1.2.tail ++
          (vc :: (vtl ++ ((items.map (fun q => q.1.2 ++ q.2.2)).flatten ++ 'e' :: g)))).length) + 2 ≤ f := by
        rw [hk2]
        simp only [List.tail_cons, List.length_append, List.length_cons] at hfuel ⊢
        omega
      have hstep1 := hkd q (by simp)
        (vc :: (vtl ++ ((items.map (fun q => q.1.2 ++ q.2.2)).flatten ++ 'e' :: g))) f hbound1
      rw [hk2] at hstep1
      simp only [List.head?_cons, List.tail_cons] at hstep1
      rw [decodeDictLoop_cons_ok f elems kc _ _ (.byteString q.1.1) hkce hstep1]
      cases f with
      | zero => simp only [List.length_cons, List.length_append] at hfuel; omega
      | succ f2 =>
        have hbound2 : 2 * ((q.2.2.tail ++
            ((items.map (fun q => q.1.2 ++ q.2.2)).flatten ++ 'e' :: g)).length) + 2 ≤ f2 := by
          rw [hv2]
          simp only [List.tail_cons, List.length_append, List.length_cons] at hfuel ⊢
          omega
        have hstep2 := hvd q (by simp)
          ((items.map (fun q => q.1.2 ++ q.2.2)).flatten ++ 'e' :: g) f2 hbound2
        rw [hv2] at hstep2
        simp only [List.head?_cons, List.tail_cons] at hstep2
        rw [decodeDictLoop_cons_ok f2 (.byteString q.1.1 :: elems) vc _ _ q.2.1 hvce hstep2]
        have hb3 : 2 * (((items.map (fun q => q.1.2 ++ q.2.2)).flatten ++ 'e' :: g)).length + 1 ≤ f2 := by
          simp only [List.length_append, List.length_cons] at hfuel ⊢
          omega
        rw [ih (fun r hr => hkm r (List.mem_cons_of_mem q hr))
            (fun r hr => hvm r (List.mem_cons_of_mem q hr))
            (fun r hr => hkd r (List.mem_cons_of_mem q hr))
            (fun r hr => hvd r (List.mem_cons_of_mem q hr))
            (q.2.1 :: .byteString q.1.1 :: elems) g f2 hb3]
        congr 1
        simp [List.reverse_cons, pairElemsRev_append, pairElemsRev, List.append_assoc]

/-- Main roundtrip lemma: dispatching on the first character of a
complete encoding followed by arbitrary trailing input decodes the
encoded value and leaves exactly the trailing input, independent of
its content.  Strong induction on the encoding length. -/
theorem Enc_dispatch : ∀ (N : Nat) (v : BType) (enc : List Char),
    Enc v enc → enc.length ≤ N →
    ∀ (g : List Char) (fuel : Nat), 2 * (enc.tail ++ g).length + 2 ≤ fuel →
      detectAndDecode fuel enc.head? (enc.tail ++ g) = .ok (v, g) := by
  intro N
  induction N with
  | zero =>
    intro v enc henc hlen
    have hne := Enc_ne_nil v enc henc
    cases enc with
    | nil => exact absurd rfl hne
    | cons c tl => simp at hlen
  | succ N ihN =>
    intro v enc henc hlen g fuel hfuel
    cases henc with
    | int n body hb =>
      simp only [List.cons_append, List.head?_cons, List.tail_cons] at hfuel ⊢
      have harr : (body ++ ['e']) ++ g = body ++ 'e' :: g := by simp
      rw [harr] at hfuel ⊢
      cases fuel with
      | zero => omega
      | succ f =>
        rw [detectAndDecode_succ, if_neg (by decide), if_pos rfl]
        rw [decodeInteger_terminated body g (IntLit_no_e body n hb),
          IntLit_parseI64 body n hb]
    | str ds payload hne hall hlen2 hle =>
      cases ds with
      | nil => exact absurd rfl hne
      | cons d dtl =>
        simp only [List.cons_append, List.head?_cons, List.tail_cons] at hfuel ⊢
        have hcd : d.isDigit = true := by
          have := List.all_eq_true.1 hall d (by simp)
          simpa using this
        obtain ⟨hd, hi, hl, -, -, -, -⟩ := isDigit_ne d hcd
        have harr : (dtl ++ ':' :: payload) ++ g = dtl ++ ':' :: (payload ++ g) := by simp
        rw [harr] at hfuel ⊢
        cases fuel with
        | zero => omega
        | succ f =>
          rw [detectAndDecode_succ, if_neg hd, if_neg hi, if_neg hl, if_pos hcd]
          have hdtl : ∀ c ∈ dtl, c ≠ ':' := by
            intro c hc hcc
            subst hcc
            have h2 := List.all_eq_true.1 hall ':' (by simp [hc])
            simp only at h2
            exact absurd h2 (by decide)
          have hp : parseUsize (d :: dtl) = some payload.length := by
            have h3 := parseUsize_digits (d :: dtl) (by simp) hall (by rw [hlen2]; exact hle)
            rw [hlen2] at h3
            exact h3
          rw [decodeString_split d dtl (payload ++ g) payload.length hdtl hp,
            List.take_left, List.drop_left]
    | list items hmem =>
      simp only [List.cons_append, List.head?_cons, List.tail_cons] at hfuel ⊢
      have harr : ((items.map Prod.snd).flatten ++ ['e']) ++ g =
          (items.map Prod.snd).flatten ++ 'e' :: g := by simp
      rw [harr] at hfuel ⊢
      cases fuel with
      | zero => omega
      | succ f =>
        rw [detectAndDecode_succ, if_neg (by decide), if_neg (by decide), if_pos rfl]
        have hpoint : ∀ p ∈ items, ∀ (g2 : List Char) (fuel2 : Nat),
            2 * (p.2.tail ++ g2).length + 2 ≤ fuel2 →
            detectAndDecode fuel2 p.2.head? (p.2.tail ++ g2) = .ok (p.1, g2) := by
          intro p hp g2 fuel2 hf2
          have hplen : p.2.length ≤ (items.map Prod.snd).flatten.length :=
            length_le_flatten _ _ (List.mem_map_of_mem Prod.snd hp)
          refine ihN p.1 p.2 (hmem p hp) ?_ g2 fuel2 hf2
          simp only [List.cons_append, List.length_cons, List.length_append,
            List.length_singleton] at hlen
          omega
        rw [Enc_listLoop items hmem hpoint [] g f
          (by simp only [List.length_append, List.length_cons] at hfuel ⊢; omega)]
        simp
    | dict items hkm hvm =>
      simp only [List.cons_append, List.head?_cons, List.tail_cons] at hfuel ⊢
      have harr : ((items.map (fun q => q.1.2 ++ q.2.2)).flatten ++ ['e']) ++ g =
          (items.map (fun q => q.1.2 ++ q.2.2)).flatten ++ 'e' :: g := by simp
      rw [harr] at hfuel ⊢
      cases fuel with
      | zero => omega
      | succ f =>
        rw [detectAndDecode_succ, if_pos rfl]
        have hsub : ∀ q ∈ items,
            q.1.2.length ≤ (items.map (fun q => q.1.2 ++ q.2.2)).flatten.length ∧
            q.2.2.length ≤ (items.map (fun q => q.1.2 ++ q.2.2)).flatten.length := by
          intro q hq
          have hmem2 : q.1.2 ++ q.2.2 ∈ items.map (fun q => q.1.2 ++ q.2.2) :=
            List.mem_map_of_mem _ hq
          have h3 := length_le_flatten _ _ hmem2
          simp only [List.length_append] at h3
          omega
        have hkd : ∀ q ∈ items, ∀ (g2 : List Char) (fuel2 : Nat),
            2 * (q.1.2.tail ++ g2).length + 2 ≤ fuel2 →
            detectAndDecode fuel2 q.1.2.head? (q.1.2.tail ++ g2) =
              .ok (.byteString q.1.1, g2) := by
          intro q hq g2 fuel2 hf2
          refine ihN (.byteString q.1.1) q.1.2 (hkm q hq) ?_ g2 fuel2 hf2
          have h4 := (hsub q hq).1
          simp only [List.cons_append, List.length_cons, List.length_append,
            List.length_singleton] at hlen
          omega
        have hvd : ∀ q ∈ items, ∀ (g2 : List Char) (fuel2 : Nat),
            2 * (q.2.2.tail ++ g2).length + 2 ≤ fuel2 →
            detectAndDecode fuel2 q.2.2.head? (q.2.2.tail ++ g2) = .ok (q.2.1, g2) := by
          intro q hq g2 fuel2 hf2
          refine ihN q.2.1 q.2.2 (hvm q hq) ?_ g2 fuel2 hf2
          have h4 := (hsub q hq).2
          simp only [List.cons_append, List.length_cons, List.length_append,
            List.length_singleton] at hlen
          omega
        rw [Enc_dictLoop items hkm hvm hkd hvd [] g f
          (by simp only [List.length_append, List.length_cons] at hfuel ⊢; omega)]
        rw [List.append_nil, finishDict_pairs]

/-- C10: trailing input after a complete top-level encoding is
ignored.  For every value, every complete encoding `enc` of it per the
wire grammar of section 6, and arbitrary trailing characters `g`, the
decoder succeeds with the encoded value, whatever `g` holds — the
trailing characters are never examined. -/
theorem C10_trailingGarbage (v : BType) (enc g : List Char) (h : Enc v enc) :
    decode (String.mk (enc ++ g)) = .ok v := by
  have hlen2 := Enc_length_two_le v enc h
  obtain ⟨c, tl, hence⟩ : ∃ c tl, enc = c :: tl := by
    cases hq : enc with
    | nil => rw [hq] at hlen2; simp at hlen2
    | cons c tl => exact ⟨c, tl, rfl⟩
  have hlen3 : ¬ (String.mk (enc ++ g)).utf8ByteSize < 2 := by
    have h1 : (String.mk (enc ++ g)).length = (enc ++ g).length := rfl
    have h2 := length_le_utf8ByteSize (String.mk (enc ++ g))
    rw [h1, List.length_append] at h2
    omega
  rw [decode_eq, if_neg hlen3]
  have hdata : (String.mk (enc ++ g)).data = enc ++ g := rfl
  rw [hdata]
  subst hence
  simp only [List.cons_append, List.head?_cons, List.tail_cons]
  have hstep := Enc_dispatch ((c :: tl).length) v (c :: tl) h le_rfl g
    (decodeFuel (c :: (tl ++ g)))
    (by simp only [decodeFuel, List.head?_cons, List.tail_cons, List.length_cons,
      List.length_append]; omega)
  simp only [List.head?_cons, List.tail_cons] at hstep
  rw [hstep]

/-- Witness for C10: an integer encoding followed by garbage. -/
theorem C10_witness : decode "i1egarbage" = .ok (.integer 1) := by
  have h1 : IntLit ['1'] 1 := IntLit.pos ['1'] (by decide) (by decide) (by decide)
  have h2 : Enc (.integer 1) ('i' :: ['1'] ++ ['e']) := Enc.int 1 ['1'] h1
  have h3 := C10_trailingGarbage (.integer 1) ('i' :: ['1'] ++ ['e']) "garbage".data h2
  exact h3

example : decode "le" = .ok (.list []) := rfl
example : decode "i123456789e" = .ok (.integer 123456789) := rfl
example : decode "i-123e" = .ok (.integer (-123)) := rfl
example : decode "5:hello" = .ok (.byteString "hello".data) := rfl
example : decode "4:hello" = .ok (.byteString "hell".data) := rfl
example : decode "l5:helloe" = .ok (.list [.byteString "hello".data]) := rfl
example : decode "ll5:helloee" = .ok (.list [.list [.byteString "hello".data]]) := rfl
example : decode "ll5:helloei-10ee" =
    .ok (.list [.list [.byteString "hello".data], .integer (-10)]) := rfl
example : decode "de" = .ok (.dict []) := rfl
example : decode "d4:key16:value14:key26:value2e" =
    .ok (.dict [("key1".data, .byteString "value1".data),
                ("key2".data, .byteString "value2".data)]) := rfl
example : decode "l" = .error .inputTooShort := rfl
example : decode "55" = .ok (.byteString []) := rfl
example : decode "i+5e" = .ok (.integer 5) := rfl
example : decode "d1:a1:x1:a1:ye" = .ok (.dict [("a".data, .byteString "x".data)]) := rfl

end Bencoder
